import Mathlib

/-!
# Verification of the `review-builder` counting and cost-estimation pipeline

Shallow embedding of the word/token counting, frequency aggregation,
cost computation and report rendering implemented in `book_analyzer.py`
and in the packaged `book_summarizer/book_analyzer.py` (the current
generation, cited first by every claim; its logic subsumes the legacy
flat-script variant for the verified operations).

External collaborators are modelled as the specification directs:
the e-book extractor is a black box producing the ordered chapter
strings, the word tokenizer and the per-model subword encoders are
pluggable functions, and Python floats are modelled as exact rationals.
-/

namespace ReviewBuilder

/-- A pricing-model client. Modelled from the spec: `llm_core.py`
(`LLMClient`, `GPT4oMini`, `GPT4O`) is not among the sources; per the
spec a pricing model is a pluggable client identified by name, carrying
a price per 1000 tokens and a model-specific subword encoder ("given a
string, returns an ordered sequence of token identifiers"). -/
structure LLMClient where
  model_name : String
  price_per_1000 : ℚ
  encode : String → List Nat

/-- Modelled from the spec: `cost_calculator.py` is not among the
sources; the spec gives `calculate_cost` =
`(encoded_token_count(full_text, model) / 1000.0) * model.price_per_1000`. -/
def CostCalculator.calculate_cost (model : LLMClient) (text : String) : ℚ :=
  ((model.encode text).length : ℚ) / 1000 * model.price_per_1000

/-- First-occurrence deduplication: the distinct elements of `l` in the
order of their first occurrence. This is the key order of the Python
`Counter`/`dict` built by scanning `all_tokens` left to right
(dict insertion order). -/
def dedupFirst : List String → List String
  | [] => []
  | x :: xs => x :: dedupFirst (xs.filter (fun y => y != x))
termination_by l => l.length
decreasing_by
  simpa using Nat.lt_succ_of_le (List.length_filter_le _ xs)

/-- One step of a stable insertion sort by descending count; the element
being inserted comes later in the original item order than everything
already in the list, so it is placed after all equal-count entries. -/
def insertByCount (x : String × Nat) : List (String × Nat) → List (String × Nat)
  | [] => [x]
  | y :: ys => if x.2 < y.2 then y :: insertByCount x ys else x :: y :: ys

/-- Stable sort by descending count (insertion sort), modelling the
stable sort CPython's `Counter.most_common()` performs on the counter's
items. -/
def sortByCountDesc : List (String × Nat) → List (String × Nat)
  | [] => []
  | x :: xs => insertByCount x (sortByCountDesc xs)

/-- `Counter(all_tokens).most_common()`: each distinct token paired with
its occurrence count, the items (in first-encounter order) stably sorted
by descending count. -/
def mostCommon (all_tokens : List String) : List (String × Nat) :=
  sortByCountDesc ((dedupFirst all_tokens).map (fun w => (w, all_tokens.count w)))

namespace FrequencyAggregator

/-- Body of `BookAnalyzer.word_counts` over an explicit tokenized-chapter
sequence: `total_word_count = sum(len(tokens) for tokens in ...)`,
`chapter_word_counts = [len(tokens) for tokens in ...]`. -/
def word_counts (tokenized_chapters : List (List String)) : Nat × List Nat :=
  ((tokenized_chapters.map List.length).sum, tokenized_chapters.map List.length)

/-- Body of `BookAnalyzer.word_frequencies` over an explicit
tokenized-chapter sequence:
`all_tokens = [token for tokens in ... for token in tokens]`,
then `dict(Counter(all_tokens).most_common())` (a dict in `most_common`
order, here an association list with distinct keys). -/
def word_frequencies (tokenized_chapters : List (List String)) : List (String × Nat) :=
  mostCommon tokenized_chapters.flatten

end FrequencyAggregator

/-- The analyzer state built by `BookAnalyzer.__init__`: the ordered
chapter strings from the external `EpubExtractor` (a black box), the
external `nltk` `word_tokenize` function (pluggable, deterministic), and
the configured pricing clients (the code instantiates
`[GPT4oMini(), GPT4O()]` from the absent `llm_core.py`; per the spec the
orchestrator iterates a configured list of such variants). -/
structure BookAnalyzer where
  word_tokenize : String → List String
  chapters : List String
  models : List LLMClient

/-- `self.tokenized_chapters = [word_tokenize(chapter) for chapter in self.chapters]` -/
def BookAnalyzer.tokenized_chapters (a : BookAnalyzer) : List (List String) :=
  a.chapters.map a.word_tokenize

/-- `BookAnalyzer.word_counts` -/
def BookAnalyzer.word_counts (a : BookAnalyzer) : Nat × List Nat :=
  FrequencyAggregator.word_counts a.tokenized_chapters

/-- `BookAnalyzer.word_frequencies` -/
def BookAnalyzer.word_frequencies (a : BookAnalyzer) : List (String × Nat) :=
  FrequencyAggregator.word_frequencies a.tokenized_chapters

/-- The text whose encoding is priced by `BookAnalyzer.calculate_cost`:
`full_text = " ".join([" ".join(chapter) for chapter in self.tokenized_chapters])`.
Note the code joins the word-tokenized chapters, not the raw chapter
strings. -/
def BookAnalyzer.full_text (a : BookAnalyzer) : String :=
  String.intercalate " " (a.tokenized_chapters.map (fun chapter => String.intercalate " " chapter))

/-- `BookAnalyzer.calculate_cost`: delegate the joined text to
`CostCalculator(model_client).calculate_cost`. -/
def BookAnalyzer.calculate_cost (a : BookAnalyzer) (model_client : LLMClient) : ℚ :=
  CostCalculator.calculate_cost model_client a.full_text

/-- Python dict assignment `d[k] = v`: replace the value in place when
the key is present (keeping its position), otherwise append the new
binding. -/
def dictInsert {α : Type} (k : String) (v : α) : List (String × α) → List (String × α)
  | [] => [(k, v)]
  | (k', v') :: rest => if k' = k then (k, v) :: rest else (k', v') :: dictInsert k v rest

/-- `BookAnalyzer.token_counts`: for each configured model, the total
encoded-token count of the raw chapters and the per-chapter
encoded-token counts, keyed by model name (a dict modelled as an
association list in insertion order). -/
def BookAnalyzer.token_counts (a : BookAnalyzer) : List (String × (Nat × List Nat)) :=
  a.models.foldl
    (fun d model =>
      dictInsert model.model_name
        ((a.chapters.map (fun chapter => (model.encode chapter).length)).sum,
         a.chapters.map (fun chapter => (model.encode chapter).length)) d)
    []

/-- Auxiliary for `commaFormat`: walking the decimal digits from the
least significant, insert `,` before every digit whose position is a
positive multiple of three. -/
def commaAux : List Char → Nat → List Char
  | [], _ => []
  | c :: cs, k =>
      if k % 3 == 0 && k != 0 then ',' :: c :: commaAux cs (k + 1)
      else c :: commaAux cs (k + 1)

/-- Python `f"{n:,}"` for a natural number: decimal digits grouped in
threes by commas. -/
def commaFormat (n : Nat) : String :=
  ((commaAux (toString n).data.reverse 0).reverse).asString

/-- Python `f"{cost:.2f}"`, modelled from the spec over exact rationals
("cost formatted to 2 decimals"): the cost rounded to hundredths (half
up) and rendered with two decimal digits. -/
def fmtFixed2 (q : ℚ) : String :=
  let c : Int := Rat.floor (q * 100 + 1 / 2)
  let i := c / 100
  let f := (c % 100).toNat
  toString i ++ "." ++ (if f < 10 then "0" ++ toString f else toString f)

/-- One rendered row of the frequency table:
`f"| {word} | {frequency} |\n"`. -/
def freqRow (w : String) (f : Nat) : String :=
  s!"| {w} | {f} |\n"

/-- The frequency-table loop of `write_statistics`:
`for i, (word, frequency) in enumerate(word_frequencies.items())` with
`if i >= 200: break`. -/
def freqRowsLoop : Nat → List (String × Nat) → List String
  | _, [] => []
  | i, (w, f) :: rest => if 200 ≤ i then [] else freqRow w f :: freqRowsLoop (i + 1) rest

/-- The rows of the rendered word-frequency table of the structured
report (the loop starts with `i = 0`). -/
def BookAnalyzer.freqRows (a : BookAnalyzer) : List String :=
  freqRowsLoop 0 a.word_frequencies

/-- `f"Total Word Count: {total_word_count:,}\n\n"` -/
def totalLine (total_word_count : Nat) : String :=
  let t := commaFormat total_word_count
  s!"Total Word Count: {t}\n\n"

/-- `f"| {model.model_name} | ${cost:.2f} |\n"` -/
def costRowStr (name cost_str : String) : String :=
  s!"| {name} | ${cost_str} |\n"

/-- `"| Chapter | Words |" + " | ".join(f"{model} Tokens" for model in models) + " |\n"` -/
def chapterHeaderRow (modelNames : List String) : String :=
  "| Chapter | Words |" ++ String.intercalate " | " (modelNames.map (fun n => n ++ " Tokens")) ++ " |\n"

/-- `"|---------|-------|" + " | ".join(["--------"] * len(models)) + "|\n"` -/
def chapterSepRow (modelNames : List String) : String :=
  "|---------|-------|" ++ String.intercalate " | " (List.replicate modelNames.length "--------") ++ "|\n"

/-- `f"| {i+1} | {word_count:,} | {token_counts_row} |\n"` where
`token_counts_row = " | ".join(f"{token_counts[model][1][i]:,}" ...)`. -/
def chapterRow (i word_count : Nat) (chapter_tokens : List Nat) : String :=
  let a := toString (i + 1)
  let b := commaFormat word_count
  let c := String.intercalate " | " (chapter_tokens.map commaFormat)
  s!"| {a} | {b} | {c} |\n"

/-- The observable steps of `write_statistics`: the up-front statistics
computation, opening the destination, each `file.write(...)` call in
program order, each per-model cost computation (which happens between
writes, inside the `with` block), and closing the file. -/
inductive ReportEvent where
  | computeStats
  | openFile
  | write (s : String)
  | computeCost (model_name : String)
  | closeFile

def isWrite : ReportEvent → Bool
  | ReportEvent.write _ => true
  | _ => false

def isComputeCost : ReportEvent → Bool
  | ReportEvent.computeCost _ => true
  | _ => false

def isOpenFile : ReportEvent → Bool
  | ReportEvent.openFile => true
  | _ => false

def writtenChunk : ReportEvent → Option String
  | ReportEvent.write s => some s
  | _ => none

/-- `BookAnalyzer.write_statistics` as an event trace, translated
statement by statement: word counts, token counts and word frequencies
are computed first, then the file is opened and the report sections are
written chunk by chunk, with each model's cost computed between writes
inside the cost-table loop. -/
def BookAnalyzer.write_statistics_trace (a : BookAnalyzer) : List ReportEvent :=
  let twc := (a.word_counts).1
  let cwc := (a.word_counts).2
  let tcs := a.token_counts
  let modelNames := tcs.map Prod.fst
  [ReportEvent.computeStats, ReportEvent.openFile,
   ReportEvent.write "# Book Statistics\n\n",
   ReportEvent.write "## Overview\n\n",
   ReportEvent.write (totalLine twc),
   ReportEvent.write "| Model | Cost |\n",
   ReportEvent.write "|-------|------|\n"]
  ++ (a.models.map (fun model =>
        [ReportEvent.computeCost model.model_name,
         ReportEvent.write (costRowStr model.model_name (fmtFixed2 (a.calculate_cost model)))])).flatten
  ++ [ReportEvent.write "\n",
      ReportEvent.write "## Word and Token Counts per Chapter\n\n",
      ReportEvent.write (chapterHeaderRow modelNames),
      ReportEvent.write (chapterSepRow modelNames)]
  ++ (List.range cwc.length).map (fun i =>
        ReportEvent.write (chapterRow i (cwc.getD i 0) (tcs.map (fun e => (e.2.2).getD i 0))))
  ++ [ReportEvent.write "## Word Frequencies (First 200 Words)\n\n",
      ReportEvent.write "| Word | Frequency |\n",
      ReportEvent.write "|------|-----------|\n"]
  ++ (a.freqRows).map ReportEvent.write
  ++ [ReportEvent.write "\n", ReportEvent.closeFile]

/-- The file content present at the destination when the first event
satisfying `p` crashes the run: the concatenation of the chunks written
strictly before it. -/
def contentBefore (p : ReportEvent → Bool) (evs : List ReportEvent) : String :=
  String.join ((evs.takeWhile (fun e => !(p e))).filterMap writtenChunk)

/-- The cost as a function of the encoded token count alone:
`(n / 1000.0) * price`. `calculate_cost` factors through it. -/
def costOfTokenCount (price : ℚ) (n : Nat) : ℚ :=
  (n : ℚ) / 1000 * price

/-- The cost as claim C1 states it: the model encoder applied to the
concatenation of the raw chapter texts with a single-space separator.
Written from the spec's words, for comparison with
`BookAnalyzer.calculate_cost`, which is translated from the code. -/
def calculate_cost_rawtext_spec (model : LLMClient) (chapters : List String) : ℚ :=
  CostCalculator.calculate_cost model (String.intercalate " " chapters)

/-- A character-level encoder used as a concrete witness instance of the
pluggable encoder capability. It maps the empty string to no tokens. -/
def encChar : String → List Nat := fun s => s.toList.map Char.toNat

/-- Concrete witness tokenizer that returns the two word tokens of the
text `"a  b"` (as `nltk.word_tokenize` would). -/
def tokAB : String → List String := fun _ => ["a", "b"]

/-- Concrete witness tokenizer for empty chapter texts
(`word_tokenize("") == []`). -/
def tokEmpty : String → List String := fun _ => []

/-- Concrete witness model with unit price and the character encoder. -/
def mUnit : LLMClient := ⟨"unit", 1, encChar⟩

/-- Second concrete witness model, distinct name and price. -/
def mTwo : LLMClient := ⟨"two", 2, encChar⟩

/-- Concrete analyzer for claim C1: one chapter whose raw text `"a  b"`
has a double space, so rejoining its word tokens with single spaces
yields the different text `"a b"`. -/
def aDouble : BookAnalyzer := ⟨tokAB, ["a  b"], [mUnit]⟩

/-- Concrete analyzer for claim C5: two chapters that are both empty
strings; joining their (empty) token lists with the single-space
separator produces the one-character text `" "`. -/
def aEmptyChapters : BookAnalyzer := ⟨tokEmpty, ["", ""], [mUnit]⟩

/-- Concrete analyzer for claim C8: a one-chapter, one-model book. -/
def aHi : BookAnalyzer := ⟨fun _ => ["hi"], ["hi"], [mUnit]⟩

/-- Concrete analyzer with two configured models, for the token-count
claims. -/
def aTwoModels : BookAnalyzer := ⟨tokAB, ["ab", "c"], [mUnit, mTwo]⟩

/-- The result ordering invariant of the stable descending sort, for an
arbitrary tie-breaking order `S`: entries are related pairwise by
"strictly larger count, or equal count and `S`-earlier". -/
def StableDescRel (S : String × Nat → String × Nat → Prop) (p q : String × Nat) : Prop :=
  q.2 < p.2 ∨ (p.2 = q.2 ∧ S p q)

/-! ## Helper lemmas -/

theorem mem_dedupFirst {a : String} {l : List String} : a ∈ dedupFirst l ↔ a ∈ l := by
  induction l using dedupFirst.induct with
  | case1 => simp [dedupFirst]
  | case2 x xs ih =>
    rw [dedupFirst]
    simp only [List.mem_cons, ih, List.mem_filter, bne_iff_ne, ne_eq]
    constructor
    · rintro (rfl | ⟨hmem, _⟩)
      · exact Or.inl rfl
      · exact Or.inr hmem
    · rintro (rfl | hmem)
      · exact Or.inl rfl
      · by_cases hx : a = x
        · exact Or.inl hx
        · exact Or.inr ⟨hmem, hx⟩

theorem nodup_dedupFirst (l : List String) : (dedupFirst l).Nodup := by
  induction l using dedupFirst.induct with
  | case1 => simp [dedupFirst]
  | case2 x xs ih =>
    rw [dedupFirst]
    refine List.nodup_cons.mpr ⟨?_, ih⟩
    intro hx
    have := mem_dedupFirst.mp hx
    simp [List.mem_filter] at this

theorem sum_count_dedupFirst (l : List String) :
    ((dedupFirst l).map (fun w => l.count w)).sum = l.length := by
  induction l using dedupFirst.induct with
  | case1 => simp [dedupFirst]
  | case2 x xs ih =>
    rw [dedupFirst]
    have hmap : (dedupFirst (xs.filter (fun y => y != x))).map (fun w => (x :: xs).count w)
        = (dedupFirst (xs.filter (fun y => y != x))).map
            (fun w => (xs.filter (fun y => y != x)).count w) := by
      refine List.map_congr_left ?_
      intro w hw
      have hwmem := mem_dedupFirst.mp hw
      have hwne : w ≠ x := by
        have := (List.mem_filter.mp hwmem).2
        simpa using this
      rw [List.count_cons_of_ne hwne, List.count_filter]
      simpa using hwne
    simp only [List.map_cons, List.sum_cons, hmap, ih, List.count_cons_self]
    have hsplit : xs.length = xs.count x + (xs.filter (fun y => y != x)).length := by
      have h1 : xs.count x = xs.countP (fun y => y == x) := rfl
      have h2 : (xs.filter (fun y => y != x)).length = xs.countP (fun y => y != x) :=
        (List.countP_eq_length_filter _ _).symm
      have h3 : xs.countP (fun y => y == x) + xs.countP (fun y => y != x) = xs.length := by
        have h4 := List.length_eq_countP_add_countP (fun y => y == x) xs
        rw [h4]
        congr 1
        refine List.countP_congr ?_
        intro a _
        simp [bne]
      omega
    simp only [List.length_cons]
    omega

theorem mem_insertByCount {z x : String × Nat} {l : List (String × Nat)} :
    z ∈ insertByCount x l ↔ z = x ∨ z ∈ l := by
  induction l with
  | nil => simp [insertByCount]
  | cons y ys ih =>
    rw [insertByCount]
    by_cases h : x.2 < y.2
    · simp only [if_pos h, List.mem_cons, ih]
      tauto
    · simp only [if_neg h, List.mem_cons]

theorem perm_insertByCount (x : String × Nat) (l : List (String × Nat)) :
    (insertByCount x l).Perm (x :: l) := by
  induction l with
  | nil => simp [insertByCount]
  | cons y ys ih =>
    rw [insertByCount]
    by_cases h : x.2 < y.2
    · rw [if_pos h]
      exact (ih.cons y).trans (List.Perm.swap x y ys)
    · rw [if_neg h]

theorem perm_sortByCountDesc (l : List (String × Nat)) :
    (sortByCountDesc l).Perm l := by
  induction l with
  | nil => simp [sortByCountDesc]
  | cons x xs ih =>
    rw [sortByCountDesc]
    exact (perm_insertByCount x (sortByCountDesc xs)).trans (ih.cons x)

theorem perm_mostCommon (l : List String) :
    (mostCommon l).Perm ((dedupFirst l).map (fun w => (w, l.count w))) :=
  perm_sortByCountDesc _

theorem pairwise_insertByCount {S : String × Nat → String × Nat → Prop}
    {x : String × Nat} {l : List (String × Nat)}
    (hl : l.Pairwise (StableDescRel S)) (hx : ∀ y ∈ l, S x y) :
    (insertByCount x l).Pairwise (StableDescRel S) := by
  induction l with
  | nil => simp [insertByCount]
  | cons y ys ih =>
    rw [List.pairwise_cons] at hl
    obtain ⟨hy, hys⟩ := hl
    rw [insertByCount]
    by_cases h : x.2 < y.2
    · rw [if_pos h]
      refine List.pairwise_cons.mpr ⟨?_, ih hys (fun z hz => hx z (List.mem_cons_of_mem y hz))⟩
      intro z hz
      rcases mem_insertByCount.mp hz with rfl | hz'
      · exact Or.inl h
      · exact hy z hz'
    · rw [if_neg h]
      refine List.pairwise_cons.mpr ⟨?_, List.pairwise_cons.mpr ⟨hy, hys⟩⟩
      intro z hz
      rcases List.mem_cons.mp hz with rfl | hz'
      · rcases Nat.lt_or_ge z.2 x.2 with hlt | hge
        · exact Or.inl hlt
        · have : x.2 = z.2 := Nat.le_antisymm hge (Nat.le_of_not_lt h)
          exact Or.inr ⟨this, hx z (List.mem_cons_self z ys)⟩
      · have hzy : z.2 ≤ y.2 := by
          rcases hy z hz' with hlt | ⟨heq, _⟩
          · exact Nat.le_of_lt hlt
          · exact Nat.le_of_eq heq.symm
        have hzx : z.2 ≤ x.2 := Nat.le_trans hzy (Nat.le_of_not_lt h)
        rcases Nat.lt_or_ge z.2 x.2 with hlt | hge
        · exact Or.inl hlt
        · have : x.2 = z.2 := Nat.le_antisymm hge hzx
          exact Or.inr ⟨this, hx z (List.mem_cons_of_mem y hz')⟩

theorem pairwise_sortByCountDesc {S : String × Nat → String × Nat → Prop}
    {l : List (String × Nat)} (hl : l.Pairwise S) :
    (sortByCountDesc l).Pairwise (StableDescRel S) := by
  induction l with
  | nil => simp [sortByCountDesc]
  | cons x xs ih =>
    rw [List.pairwise_cons] at hl
    obtain ⟨hx, hxs⟩ := hl
    rw [sortByCountDesc]
    refine pairwise_insertByCount (ih hxs) ?_
    intro y hy
    exact hx y ((perm_sortByCountDesc xs).mem_iff.mp hy)

theorem indexOf_filter_lt {p : String → Bool} :
    ∀ {xs : List String} {a b : String}, a ∈ xs.filter p → b ∈ xs.filter p →
      (xs.filter p).indexOf a < (xs.filter p).indexOf b →
      xs.indexOf a < xs.indexOf b := by
  intro xs
  induction xs with
  | nil => intro a b ha _ _; simp at ha
  | cons c rest ih =>
    intro a b ha hb hlt
    have hpa : p a = true := (List.mem_filter.mp ha).2
    have hpb : p b = true := (List.mem_filter.mp hb).2
    by_cases hpc : p c = true
    · rw [List.filter_cons_of_pos hpc] at ha hb hlt
      by_cases hac : a = c
      · subst hac
        have hba : b ≠ a := by
          intro hba
          subst hba
          exact Nat.lt_irrefl _ hlt
        rw [List.indexOf_cons_self]
        rw [List.indexOf_cons_ne rest (fun h => hba h.symm)]
        exact Nat.succ_pos _
      · by_cases hbc : b = c
        · subst hbc
          rw [List.indexOf_cons_self] at hlt
          exact absurd hlt (Nat.not_lt_zero _)
        · have ha' : a ∈ rest.filter p := by
            rcases List.mem_cons.mp ha with h | h
            · exact absurd h hac
            · exact h
          have hb' : b ∈ rest.filter p := by
            rcases List.mem_cons.mp hb with h | h
            · exact absurd h hbc
            · exact h
          rw [List.indexOf_cons_ne (rest.filter p) (fun h => hac h.symm),
              List.indexOf_cons_ne (rest.filter p) (fun h => hbc h.symm)] at hlt
          rw [List.indexOf_cons_ne rest (fun h => hac h.symm),
              List.indexOf_cons_ne rest (fun h => hbc h.symm)]
          exact Nat.succ_lt_succ (ih ha' hb' (Nat.lt_of_succ_lt_succ hlt))
    · have hpc' : p c = false := Bool.eq_false_iff.mpr hpc
      rw [List.filter_cons_of_neg (by simp [hpc'])] at ha hb hlt
      have hac : a ≠ c := fun h => hpc (h ▸ hpa)
      have hbc : b ≠ c := fun h => hpc (h ▸ hpb)
      rw [List.indexOf_cons_ne rest (fun h => hac h.symm),
          List.indexOf_cons_ne rest (fun h => hbc h.symm)]
      exact Nat.succ_lt_succ (ih ha hb hlt)

theorem pairwise_indexOf_dedupFirst (l : List String) :
    (dedupFirst l).Pairwise (fun a b => l.indexOf a < l.indexOf b) := by
  induction l using dedupFirst.induct with
  | case1 => simp [dedupFirst]
  | case2 x xs ih =>
    rw [dedupFirst]
    refine List.pairwise_cons.mpr ⟨?_, ?_⟩
    · intro b hb
      have hbmem := mem_dedupFirst.mp hb
      have hbne : b ≠ x := by
        have := (List.mem_filter.mp hbmem).2
        simpa using this
      rw [List.indexOf_cons_self, List.indexOf_cons_ne xs (fun h => hbne h.symm)]
      exact Nat.succ_pos _
    · refine List.Pairwise.imp_of_mem ?_ ih
      intro a b ha hb hlt
      have hamem := mem_dedupFirst.mp ha
      have hbmem := mem_dedupFirst.mp hb
      have hane : a ≠ x := by
        have := (List.mem_filter.mp hamem).2
        simpa using this
      have hbne : b ≠ x := by
        have := (List.mem_filter.mp hbmem).2
        simpa using this
      rw [List.indexOf_cons_ne xs (fun h => hane h.symm),
          List.indexOf_cons_ne xs (fun h => hbne h.symm)]
      exact Nat.succ_lt_succ (indexOf_filter_lt hamem hbmem hlt)

theorem lookup_dictInsert_self {α : Type} (k : String) (v : α) (d : List (String × α)) :
    (dictInsert k v d).lookup k = some v := by
  induction d with
  | nil => simp [dictInsert, List.lookup]
  | cons e rest ih =>
    obtain ⟨k', v'⟩ := e
    rw [dictInsert]
    by_cases h : k' = k
    · rw [if_pos h]
      simp [List.lookup]
    · rw [if_neg h]
      have hne : (k == k') = false := by
        simp [Ne.symm h]
      simp [List.lookup, hne, ih]

theorem lookup_dictInsert_ne {α : Type} {k k' : String} (v : α) (d : List (String × α))
    (h : k ≠ k') : (dictInsert k' v d).lookup k = d.lookup k := by
  have hb : (k == k') = false := by simp [h]
  induction d with
  | nil => simp [dictInsert, List.lookup, hb]
  | cons e rest ih =>
    obtain ⟨k'', v''⟩ := e
    rw [dictInsert]
    by_cases h2 : k'' = k'
    · rw [if_pos h2]
      subst h2
      simp [List.lookup, hb]
    · rw [if_neg h2]
      by_cases h3 : k = k''
      · subst h3
        simp [List.lookup]
      · have hne : (k == k'') = false := by simp [h3]
        simp [List.lookup, hne, ih]

/-- Folding `dictInsert` over entries whose keys never equal `k` leaves
`lookup k` unchanged. -/
theorem lookup_foldl_of_not_mem {α : Type} (g : LLMClient → α) :
    ∀ (ms : List LLMClient) (d : List (String × α)) (k : String),
      k ∉ ms.map LLMClient.model_name →
      (ms.foldl (fun d' m => dictInsert m.model_name (g m) d') d).lookup k = d.lookup k := by
  intro ms
  induction ms with
  | nil => intro d k _; rfl
  | cons m rest ih =>
    intro d k hk
    simp only [List.map_cons, List.mem_cons] at hk
    push_neg at hk
    rw [List.foldl_cons, ih _ _ hk.2, lookup_dictInsert_ne _ _ hk.1]

/-- After the `token_counts` fold, looking up the name of a configured
model (under per-name uniqueness of the configuration) returns the value
computed for that model. -/
theorem lookup_foldl_dictInsert {α : Type} (g : LLMClient → α) :
    ∀ (ms : List LLMClient) (d : List (String × α)) (m : LLMClient),
      m ∈ ms → (ms.map LLMClient.model_name).Nodup →
      (ms.foldl (fun d' m' => dictInsert m'.model_name (g m') d') d).lookup m.model_name
        = some (g m) := by
  intro ms
  induction ms with
  | nil => intro d m hm _; simp at hm
  | cons m' rest ih =>
    intro d m hm hnd
    simp only [List.map_cons, List.nodup_cons] at hnd
    rw [List.foldl_cons]
    rcases List.mem_cons.mp hm with rfl | hmem
    · rw [lookup_foldl_of_not_mem g rest _ _ hnd.1]
      exact lookup_dictInsert_self _ _ _
    · exact ih _ m hmem hnd.2

theorem freqRowsLoop_eq_take :
    ∀ (l : List (String × Nat)) (i : Nat),
      freqRowsLoop i l = (l.take (200 - i)).map (fun p => freqRow p.1 p.2) := by
  intro l
  induction l with
  | nil => intro i; simp [freqRowsLoop]
  | cons e rest ih =>
    intro i
    obtain ⟨w, f⟩ := e
    rw [freqRowsLoop]
    by_cases h : 200 ≤ i
    · rw [if_pos h]
      have : 200 - i = 0 := Nat.sub_eq_zero_of_le h
      simp [this]
    · rw [if_neg h]
      have hlt : i < 200 := Nat.lt_of_not_le h
      have hsub : 200 - i = (200 - (i + 1)) + 1 := by omega
      rw [ih (i + 1), hsub]
      simp

/-! ## Claim theorems -/

/-- **C2.** For every sequence of tokenized chapters (including the empty
sequence), `word_counts` returns a pair `(total_word_count, per_chapter_counts)`
such that the total equals the sum of the per-chapter counts, the per-chapter
list has one entry per chapter, and its `i`-th entry is the length of
tokenized chapter `i`. -/
theorem C2_word_counts_sum_and_lengths (tc : List (List String)) :
    (FrequencyAggregator.word_counts tc).1 = ((FrequencyAggregator.word_counts tc).2).sum ∧
    ((FrequencyAggregator.word_counts tc).2).length = tc.length ∧
    ∀ i, i < tc.length →
      ((FrequencyAggregator.word_counts tc).2).getD i 0 = (tc.getD i []).length := by
  refine ⟨rfl, by simp [FrequencyAggregator.word_counts], ?_⟩
  intro i hi
  have h1 : i < (tc.map List.length).length := by simpa using hi
  show (tc.map List.length).getD i 0 = (tc.getD i []).length
  rw [List.getD_eq_getElem _ _ h1, List.getD_eq_getElem _ _ hi, List.getElem_map]

/-- Witness for C2 at the spec's scenario chapters `["the cat sat",
"the dog ran the cat"]` (word counts `(8, [3, 5])`). -/
theorem C2_word_counts_witness :
    (FrequencyAggregator.word_counts
        [["the", "cat", "sat"], ["the", "dog", "ran", "the", "cat"]]).1
      = ((FrequencyAggregator.word_counts
        [["the", "cat", "sat"], ["the", "dog", "ran", "the", "cat"]]).2).sum ∧
    ((FrequencyAggregator.word_counts
        [["the", "cat", "sat"], ["the", "dog", "ran", "the", "cat"]]).2).getD 1 0 = 5 := by
  have h := C2_word_counts_sum_and_lengths
    [["the", "cat", "sat"], ["the", "dog", "ran", "the", "cat"]]
  refine ⟨h.1, ?_⟩
  have h2 := h.2.2 1 (by decide)
  simpa using h2

/-- **C3.** For every sequence of tokenized chapters, the occurrence counts in
the word-frequency table returned by `word_frequencies` sum to the
`total_word_count` returned by `word_counts` on the same tokenized chapters. -/
theorem C3_freq_values_sum_to_total (tc : List (List String)) :
    ((FrequencyAggregator.word_frequencies tc).map Prod.snd).sum
      = (FrequencyAggregator.word_counts tc).1 := by
  rw [FrequencyAggregator.word_frequencies, mostCommon]
  have hperm := (perm_sortByCountDesc
    ((dedupFirst tc.flatten).map (fun w => (w, tc.flatten.count w)))).map Prod.snd
  rw [hperm.sum_eq, List.map_map]
  have hcomp : (Prod.snd ∘ fun w => (w, tc.flatten.count w))
      = fun w => tc.flatten.count w := rfl
  rw [hcomp, sum_count_dedupFirst]
  show tc.flatten.length = (FrequencyAggregator.word_counts tc).1
  rw [FrequencyAggregator.word_counts]
  exact List.length_flatten tc

/-- **C4.** For every sequence of tokenized chapters, the entries of the
word-frequency table are ordered by descending occurrence count, and for two
entries with equal counts the one whose first occurrence comes earlier in the
chapter-order-preserving flattened token stream appears first. -/
theorem C4_freq_sorted_desc_stable (tc : List (List String)) :
    (FrequencyAggregator.word_frequencies tc).Pairwise (fun p q =>
      q.2 ≤ p.2 ∧ (p.2 = q.2 → tc.flatten.indexOf p.1 < tc.flatten.indexOf q.1)) := by
  have hpw : ((dedupFirst tc.flatten).map (fun w => (w, tc.flatten.count w))).Pairwise
      (fun p q => tc.flatten.indexOf p.1 < tc.flatten.indexOf q.1) := by
    rw [List.pairwise_map]
    exact pairwise_indexOf_dedupFirst tc.flatten
  have hsorted := pairwise_sortByCountDesc hpw
  rw [FrequencyAggregator.word_frequencies, mostCommon]
  refine hsorted.imp ?_
  intro p q hr
  rcases hr with hlt | ⟨heq, hs⟩
  · exact ⟨Nat.le_of_lt hlt, fun he => absurd hlt (by omega)⟩
  · exact ⟨Nat.le_of_eq heq.symm, fun _ => hs⟩

/-- Witness for C4 at the spec's scenario token stream: the table is
`[(the, 3), (cat, 2), (sat, 1), (dog, 1), (ran, 1)]`, descending with
ties in first-encounter order. -/
theorem C4_freq_sorted_desc_stable_witness :
    (FrequencyAggregator.word_frequencies
        [["the", "cat", "sat"], ["the", "dog", "ran", "the", "cat"]]).Pairwise
      (fun p q => q.2 ≤ p.2 ∧ (p.2 = q.2 →
        ([["the", "cat", "sat"], ["the", "dog", "ran", "the", "cat"]] :
            List (List String)).flatten.indexOf p.1
          < ([["the", "cat", "sat"], ["the", "dog", "ran", "the", "cat"]] :
            List (List String)).flatten.indexOf q.1)) :=
  C4_freq_sorted_desc_stable [["the", "cat", "sat"], ["the", "dog", "ran", "the", "cat"]]

/-- **C1 (counterexample).** The claim says `calculate_cost` prices the
concatenation of the *raw* chapter texts. The code prices the rejoined
*word-tokenized* chapters: on the one-chapter book `["a  b"]` (double
space), whose word tokens are `["a", "b"]`, the code encodes `"a b"`
while the claim's text is `"a  b"`, and with a character-level encoder
the two costs differ. -/
theorem C1_counterexample_tokenized_not_raw :
    BookAnalyzer.calculate_cost aDouble mUnit
      ≠ calculate_cost_rawtext_spec mUnit ["a  b"] := by
  have e1 : BookAnalyzer.calculate_cost aDouble mUnit
      = ((encChar "a b").length : ℚ) / 1000 * 1 := rfl
  have e2 : calculate_cost_rawtext_spec mUnit ["a  b"]
      = ((encChar "a  b").length : ℚ) / 1000 * 1 := rfl
  have l1 : (encChar "a b").length = 3 := by decide
  have l2 : (encChar "a  b").length = 4 := by decide
  rw [e1, e2, l1, l2]
  norm_num

/-- **C1 (amended).** For every book and pricing model, `calculate_cost`
equals `(encoded_token_count(full_text, model) / 1000.0) *
model.price_per_1000`, where `full_text` is the single-space join of the
*word-tokenized* chapters (each chapter's tokens joined by single
spaces, chapter order preserved) — not the raw chapter texts. -/
theorem C1_amended_cost_of_tokenized_text (a : BookAnalyzer) (m : LLMClient) :
    a.calculate_cost m =
      ((m.encode (String.intercalate " "
          ((a.chapters.map a.word_tokenize).map
            (fun chapter => String.intercalate " " chapter)))).length : ℚ)
        / 1000 * m.price_per_1000 := rfl

/-- **C5 (counterexample).** The claim includes books with only empty
chapters. For `chapters = ["", ""]` the word-token lists are empty, but
the single-space join of the two empty rejoined chapters is the
one-character text `" "`, and an encoder that does not map `" "` to zero
tokens (here the character encoder) yields a nonzero cost. -/
theorem C5_counterexample_all_empty_chapters :
    BookAnalyzer.calculate_cost aEmptyChapters mUnit ≠ 0 := by
  have e1 : BookAnalyzer.calculate_cost aEmptyChapters mUnit
      = ((encChar " ").length : ℚ) / 1000 * 1 := rfl
  have l1 : (encChar " ").length = 1 := by decide
  rw [e1, l1]
  norm_num

/-- **C5 (amended).** For every book with zero chapters, the pipeline
yields total word count 0, an empty word-frequency table, and — for
every configured model whose encoder maps the empty string to no
tokens — cost 0; no division by zero can occur (the divisor is the
constant 1000), and the report is still produced (the trace opens the
file, writes the heading, and closes the file). For all-empty chapters
the word statistics are likewise zero/empty, but the joined full text
consists of separator spaces, so the cost is not 0 in general (see the
counterexample). -/
theorem C5_amended_empty_book (tok : String → List String) (models : List LLMClient)
    (h : ∀ m ∈ models, m.encode "" = []) :
    BookAnalyzer.word_counts ⟨tok, [], models⟩ = (0, []) ∧
    BookAnalyzer.word_frequencies ⟨tok, [], models⟩ = [] ∧
    (∀ m ∈ models, BookAnalyzer.calculate_cost ⟨tok, [], models⟩ m = 0) ∧
    ReportEvent.openFile ∈ BookAnalyzer.write_statistics_trace ⟨tok, [], models⟩ ∧
    ReportEvent.write "# Book Statistics\n\n"
      ∈ BookAnalyzer.write_statistics_trace ⟨tok, [], models⟩ ∧
    ReportEvent.closeFile ∈ BookAnalyzer.write_statistics_trace ⟨tok, [], models⟩ := by
  refine ⟨rfl, ?_, ?_, ?_, ?_, ?_⟩
  · simp [BookAnalyzer.word_frequencies, BookAnalyzer.tokenized_chapters,
      FrequencyAggregator.word_frequencies, mostCommon, dedupFirst, sortByCountDesc]
  · intro m hm
    have hfull : BookAnalyzer.full_text ⟨tok, [], models⟩ = "" := rfl
    show CostCalculator.calculate_cost m (BookAnalyzer.full_text ⟨tok, [], models⟩) = 0
    rw [hfull, CostCalculator.calculate_cost, h m hm]
    simp
  · simp [BookAnalyzer.write_statistics_trace]
  · simp [BookAnalyzer.write_statistics_trace]
  · simp [BookAnalyzer.write_statistics_trace]

/-- Witness for the amended C5 at a concrete empty book with one
configured model whose encoder maps `""` to no tokens. -/
theorem C5_amended_empty_book_witness :
    BookAnalyzer.word_counts ⟨tokEmpty, [], [mUnit]⟩ = (0, []) ∧
    BookAnalyzer.calculate_cost ⟨tokEmpty, [], [mUnit]⟩ mUnit = 0 := by
  have henc : ∀ m ∈ [mUnit], m.encode "" = [] := by
    intro m hm
    rcases List.mem_singleton.mp hm with rfl
    rfl
  have h := C5_amended_empty_book tokEmpty [mUnit] henc
  exact ⟨h.1, h.2.2.1 mUnit (List.mem_singleton.mpr rfl)⟩

/-- **C6.** For a fixed pricing model (a nonnegative price per 1000
tokens), the cost is the function `costOfTokenCount` of the encoded
token count, which is monotonically non-decreasing in the token count
and linear: at token count `2 * n` it is exactly twice the cost at `n`. -/
theorem C6_cost_monotone_linear (a : BookAnalyzer) (m : LLMClient)
    (hp : 0 ≤ m.price_per_1000) (n n' : Nat) (hn : n ≤ n') :
    a.calculate_cost m
        = costOfTokenCount m.price_per_1000 (m.encode a.full_text).length ∧
    costOfTokenCount m.price_per_1000 n ≤ costOfTokenCount m.price_per_1000 n' ∧
    costOfTokenCount m.price_per_1000 (2 * n) = 2 * costOfTokenCount m.price_per_1000 n := by
  refine ⟨rfl, ?_, ?_⟩
  · unfold costOfTokenCount
    have hc : (n : ℚ) ≤ (n' : ℚ) := by exact_mod_cast hn
    gcongr
  · unfold costOfTokenCount
    push_cast
    ring

/-- Witness for C6 at a concrete book, model, and token counts 3 ≤ 7. -/
theorem C6_cost_monotone_linear_witness :
    BookAnalyzer.calculate_cost aHi mUnit
        = costOfTokenCount mUnit.price_per_1000 ((mUnit.encode (BookAnalyzer.full_text aHi)).length) ∧
    costOfTokenCount mUnit.price_per_1000 3 ≤ costOfTokenCount mUnit.price_per_1000 7 ∧
    costOfTokenCount mUnit.price_per_1000 (2 * 3) = 2 * costOfTokenCount mUnit.price_per_1000 3 :=
  C6_cost_monotone_linear aHi mUnit (by norm_num [mUnit]) 3 7 (by norm_num)

/-- **C7.** For every book and every configured pricing model (the
configured names being distinct, as they are for `gpt-4o-mini` and
`gpt-4o`), `token_counts` maps the model's name to the total
encoded-token count of the *raw* chapter texts (each chapter encoded
independently with that model's encoder, not the word-tokenized form)
together with the ordered per-chapter encoded-token counts. -/
theorem C7_token_counts_per_model (a : BookAnalyzer) (m : LLMClient)
    (hm : m ∈ a.models) (hnd : (a.models.map LLMClient.model_name).Nodup) :
    (a.token_counts).lookup m.model_name
      = some ((a.chapters.map (fun chapter => (m.encode chapter).length)).sum,
              a.chapters.map (fun chapter => (m.encode chapter).length)) :=
  lookup_foldl_dictInsert _ a.models [] m hm hnd

/-- Witness for C7: a two-model configuration over the chapters
`["ab", "c"]` with the character encoder gives `(3, [2, 1])`. -/
theorem C7_token_counts_witness :
    (BookAnalyzer.token_counts aTwoModels).lookup "two" = some (3, [2, 1]) := by
  have hm : mTwo ∈ aTwoModels.models := by
    show mTwo ∈ [mUnit, mTwo]
    exact List.mem_cons_of_mem _ (List.mem_singleton.mpr rfl)
  have hnd : (aTwoModels.models.map LLMClient.model_name).Nodup := by
    show (["unit", "two"] : List String).Nodup
    decide
  have h := C7_token_counts_per_model aTwoModels mTwo hm hnd
  have hv : aTwoModels.chapters.map (fun chapter => (mTwo.encode chapter).length) = [2, 1] := by
    decide
  rw [hv] at h
  exact h

/-- **C10.** For every constructed analyzer and configured model (with
the configured names distinct), the entry `token_counts` holds for that
model satisfies: the total equals the sum of the per-chapter counts, and
the per-chapter list has exactly one entry per chapter, in chapter
order. (In this embedding the encoder is a function, so the two encoding
passes of the code — one for the total, one for the list — agree by
construction, which is the determinism the claim relies on.) -/
theorem C10_token_counts_total_is_sum (a : BookAnalyzer) (m : LLMClient)
    (hm : m ∈ a.models) (hnd : (a.models.map LLMClient.model_name).Nodup)
    (i : Nat) (hi : i < a.chapters.length) (t : Nat) (per : List Nat)
    (hlk : (a.token_counts).lookup m.model_name = some (t, per)) :
    t = per.sum ∧ per.length = a.chapters.length ∧
    per.getD i 0 = (m.encode (a.chapters.getD i "")).length := by
  have h : (a.token_counts).lookup m.model_name
      = some ((a.chapters.map (fun chapter => (m.encode chapter).length)).sum,
              a.chapters.map (fun chapter => (m.encode chapter).length)) :=
    lookup_foldl_dictInsert _ a.models [] m hm hnd
  rw [hlk] at h
  have hpair := Option.some.inj h
  have ht : t = (a.chapters.map (fun chapter => (m.encode chapter).length)).sum :=
    congrArg Prod.fst hpair
  have hper : per = a.chapters.map (fun chapter => (m.encode chapter).length) :=
    congrArg Prod.snd hpair
  subst hper
  refine ⟨ht, by simp, ?_⟩
  have h1 : i < (a.chapters.map (fun chapter => (m.encode chapter).length)).length := by
    simpa using hi
  rw [List.getD_eq_getElem _ _ h1, List.getD_eq_getElem _ _ hi, List.getElem_map]

/-- Witness for C10 at the two-model analyzer, model `unit`, chapter 1. -/
theorem C10_token_counts_total_is_sum_witness :
    3 = [2, 1].sum ∧ [2, 1].length = aTwoModels.chapters.length ∧
    [2, 1].getD 1 0 = (mUnit.encode (aTwoModels.chapters.getD 1 "")).length := by
  have hm : mUnit ∈ aTwoModels.models := by
    show mUnit ∈ [mUnit, mTwo]
    exact List.mem_cons_self _ _
  have hnd : (aTwoModels.models.map LLMClient.model_name).Nodup := by
    show (["unit", "two"] : List String).Nodup
    decide
  have hlk : (BookAnalyzer.token_counts aTwoModels).lookup mUnit.model_name
      = some (3, [2, 1]) := by decide
  exact C10_token_counts_total_is_sum aTwoModels mUnit hm hnd 1 (by decide) 3 [2, 1] hlk

/-- **C9.** In the structured report, the rendered word-frequency rows
are exactly the rows of the first 200 entries of the frequency table (in
its descending-frequency order): every entry beyond the 200th is
omitted, and at most 200 rows are rendered. -/
theorem C9_freq_rows_first_200 (a : BookAnalyzer) :
    a.freqRows = (a.word_frequencies.take 200).map (fun p => freqRow p.1 p.2) ∧
    a.freqRows.length ≤ 200 := by
  have h := freqRowsLoop_eq_take a.word_frequencies 0
  constructor
  · simpa [BookAnalyzer.freqRows] using h
  · rw [BookAnalyzer.freqRows, h]
    simp only [List.length_map, List.length_take]
    omega

/-- **C8 (counterexample).** The claim says a crash mid-run leaves no
partial output because the report is built fully in memory and written
in one operation. In the code the `with open(...)` block interleaves
`file.write` calls with the per-model cost computations: for the
concrete one-chapter book, by the time the first cost computation runs
(a step that fails if the external encoder fails, which the spec says
propagates), the open file already holds a nonempty prefix, produced by
at least two distinct write operations. -/
theorem C8_counterexample_partial_content_before_cost :
    contentBefore isComputeCost (BookAnalyzer.write_statistics_trace aHi) ≠ "" ∧
    2 ≤ ((BookAnalyzer.write_statistics_trace aHi).takeWhile
          (fun e => !(isComputeCost e))).countP isWrite := by
  refine ⟨by decide, by decide⟩

/-- **C8 (amended).** All word, token, and frequency statistics are
computed before the output file is opened, so a failure during those
computations leaves no partial output file (no write precedes the
`openFile` event); but the report is not written in one operation: it is
written incrementally inside the `with` block, with per-model cost
computations between writes, so a failure there can leave a partial
file (see the counterexample). -/
theorem C8_amended_stats_before_open (a : BookAnalyzer) :
    ((a.write_statistics_trace).takeWhile (fun e => !(isOpenFile e))).all
        (fun e => !(isWrite e)) = true ∧
    (a.write_statistics_trace).head? = some ReportEvent.computeStats :=
  ⟨rfl, rfl⟩

end ReviewBuilder
